import Mathlib

/-!
Verification of the OCR use-case extraction pipeline (`usecase_ocr.py`).

The pipeline's pure core is embedded shallowly:
* Python strings are Lean `String`s; the Python string operations used by the
  source (`lower`, `strip`, `in`, `split`, `isdigit`, `int`, `replace`) are
  modelled by executable functions on `List Char`.
* Python floats (coordinates, confidences, thresholds) are modelled as exact
  rationals `ℚ`.
* Python's stable `list.sort` is modelled by a stable insertion sort.
* The regular-expression stereotype patterns of `is_actor_text` are modelled
  by a tiny matcher for the fixed pattern language they use
  (literal characters, `\s*`, and an optional character `X?`).
-/

/-! ## Python string primitives -/

/-- `str.lower()` (ASCII case folding). -/
def pyLower (s : String) : String := String.mk (s.data.map Char.toLower)

/-- Trim leading and trailing whitespace from a character list. -/
def stripChars (l : List Char) : List Char :=
  ((l.dropWhile Char.isWhitespace).reverse.dropWhile Char.isWhitespace).reverse

/-- `str.strip()`: remove leading and trailing whitespace. -/
def pyStrip (s : String) : String := String.mk (stripChars s.data)

/-- Boolean test that the first list is a leading segment of the second. -/
def listPre : List Char → List Char → Bool
  | [], _ => true
  | _ :: _, [] => false
  | a :: as, b :: bs => a == b && listPre as bs

/-- Boolean test that the first list occurs contiguously inside the second. -/
def listInf (p : List Char) : List Char → Bool
  | [] => p.isEmpty
  | c :: cs => listPre p (c :: cs) || listInf p cs

/-- Python's `a in b` on strings: contiguous-substring containment
(`"" in b` is `True`). -/
def pyIn (a b : String) : Bool := listInf a.data b.data

/-- Accumulator-based whitespace tokenizer. -/
def wsTokensAux : List Char → List Char → List (List Char)
  | [], cur => if cur = [] then [] else [cur.reverse]
  | c :: cs, cur =>
    if c.isWhitespace then
      (if cur = [] then wsTokensAux cs [] else cur.reverse :: wsTokensAux cs [])
    else wsTokensAux cs (c :: cur)

/-- `str.split()` with no argument: split on runs of whitespace,
discarding empty tokens. -/
def wsTokens (l : List Char) : List (List Char) := wsTokensAux l []

/-- The token list of a string, as strings. -/
def pyTokens (s : String) : List String := (wsTokens s.data).map String.mk

/-- `set(s.split())`: the set of whitespace-separated tokens of a string. -/
def pyWords (s : String) : Finset String := (pyTokens s).toFinset

/-- `str.isdigit()`: non-empty and all characters are digits (ASCII model). -/
def pyIsDigit (s : String) : Bool := !s.data.isEmpty && s.data.all Char.isDigit

/-- `int(s)` for digit strings: base-10 value. -/
def pyInt (s : String) : ℤ :=
  ((s.data.foldl (fun n c => 10 * n + (c.toNat - 48)) 0 : ℕ) : ℤ)

/-- Fuelled core of `str.replace`: replace non-overlapping occurrences of
`pat` left to right.  The fuel is the length of the scanned list, which
bounds the number of steps. -/
def listReplaceAux (pat rep : List Char) : ℕ → List Char → List Char
  | _, [] => []
  | 0, l => l
  | n + 1, c :: cs =>
    if pat ≠ [] ∧ listPre pat (c :: cs) = true then
      rep ++ listReplaceAux pat rep n (cs.drop (pat.length - 1))
    else c :: listReplaceAux pat rep n cs

/-- `s.replace(pat, rep)`: replace all non-overlapping occurrences,
scanning left to right. -/
def pyReplace (s pat rep : String) : String :=
  String.mk (listReplaceAux pat.data rep.data s.data.length s.data)

/-! ## Box geometry (`_expand_bbox`, `_calculate_iou`)

A bounding box is four planar points (the source stores a list of four
`[x, y]` pairs). -/

structure Pt4 where
  p0 : ℚ × ℚ
  p1 : ℚ × ℚ
  p2 : ℚ × ℚ
  p3 : ℚ × ℚ
deriving DecidableEq

/-- The four points of a box, as a list (the source iterates over them). -/
def Pt4.pts (b : Pt4) : List (ℚ × ℚ) := [b.p0, b.p1, b.p2, b.p3]

/-- `min` of the four x coordinates (`min(x_coords)` in the source). -/
def Pt4.xMin (b : Pt4) : ℚ := min (min (min b.p0.1 b.p1.1) b.p2.1) b.p3.1

/-- `max` of the four x coordinates. -/
def Pt4.xMax (b : Pt4) : ℚ := max (max (max b.p0.1 b.p1.1) b.p2.1) b.p3.1

/-- `min` of the four y coordinates. -/
def Pt4.yMin (b : Pt4) : ℚ := min (min (min b.p0.2 b.p1.2) b.p2.2) b.p3.2

/-- `max` of the four y coordinates. -/
def Pt4.yMax (b : Pt4) : ℚ := max (max (max b.p0.2 b.p1.2) b.p2.2) b.p3.2

/-- `_expand_bbox(bbox, expand_x, expand_y)`: grow the axis-aligned envelope
by the margins on each side, clamp the low corner at 0 and the high corner at
the image width/height, and return the rectangle's four corners in
top-left, top-right, bottom-right, bottom-left order. -/
def expand_bbox (bbox : Pt4) (expand_x expand_y width height : ℚ) : Pt4 :=
  let x_min := max 0 (bbox.xMin - expand_x)
  let y_min := max 0 (bbox.yMin - expand_y)
  let x_max := min width (bbox.xMax + expand_x)
  let y_max := min height (bbox.yMax + expand_y)
  ⟨(x_min, y_min), (x_max, y_min), (x_max, y_max), (x_min, y_max)⟩

/-- `_calculate_iou(bbox1, bbox2)`: intersection-over-union of the rectangles
spanned by the first and third corners of each box; `0` when the rectangles
do not overlap or the union area is not positive. -/
def calculate_iou (bbox1 bbox2 : Pt4) : ℚ :=
  let x_left := max bbox1.p0.1 bbox2.p0.1
  let y_top := max bbox1.p0.2 bbox2.p0.2
  let x_right := min bbox1.p2.1 bbox2.p2.1
  let y_bottom := min bbox1.p2.2 bbox2.p2.2
  if x_right < x_left ∨ y_bottom < y_top then 0
  else
    let intersection_area := (x_right - x_left) * (y_bottom - y_top)
    let area1 := (bbox1.p2.1 - bbox1.p0.1) * (bbox1.p2.2 - bbox1.p0.2)
    let area2 := (bbox2.p2.1 - bbox2.p0.1) * (bbox2.p2.2 - bbox2.p0.2)
    let union_area := area1 + area2 - intersection_area
    if 0 < union_area then intersection_area / union_area else 0

/-! ## Detection records

The source threads Python dicts through the pipeline and caches the
axis-aligned envelope (`x_min`, `y_min`, `x_max`, `y_max`, `center_x`,
`center_y`) inside each dict just before merging; the cached values are
always exactly the envelope of the current `bbox`, so the embedding
computes them from `bbox` at each use site. -/

structure Det where
  bbox : Pt4
  text : String
  confidence : ℚ
  merged_from : ℕ
deriving DecidableEq

instance : Inhabited Det := ⟨⟨⟨(0, 0), (0, 0), (0, 0), (0, 0)⟩, "", 0, 1⟩⟩

/-- `result['x_min']`: low x of the envelope of the record's box. -/
def Det.xMin (d : Det) : ℚ := d.bbox.xMin

/-- `result['x_max']`. -/
def Det.xMax (d : Det) : ℚ := d.bbox.xMax

/-- `result['y_min']`. -/
def Det.yMin (d : Det) : ℚ := d.bbox.yMin

/-- `result['y_max']`. -/
def Det.yMax (d : Det) : ℚ := d.bbox.yMax

/-- `result['center_y'] = (y_min + y_max) / 2`. -/
def Det.centerY (d : Det) : ℚ := (d.yMin + d.yMax) / 2

/-! ## Stable sorting

Python's `list.sort` / `sorted` are stable; they are modelled by a stable
insertion sort: an element moves past exactly those earlier elements that
are strictly greater in the given total preorder. -/

/-- Insert `x` into `l`, passing exactly the elements strictly before it. -/
def insertS {α : Type} (le : α → α → Bool) (x : α) : List α → List α
  | [] => [x]
  | y :: ys => if le y x && !le x y then y :: insertS le x ys else x :: y :: ys

/-- Stable sort by the total preorder `le`. -/
def sortBy {α : Type} (le : α → α → Bool) (l : List α) : List α :=
  l.foldr (insertS le) []

/-! ## `_should_merge_texts` -/

/-- `_should_merge_texts(text1, text2)`: decide whether two texts are
fragments of one label. -/
def should_merge_texts (text1 text2 : String) : Bool :=
  let t1 := pyStrip (pyLower text1)
  let t2 := pyStrip (pyLower text2)
  if pyIn t1 t2 || pyIn t2 t1 then true
  else if pyIsDigit t1 && !pyIsDigit t2 then true
  else if pyIsDigit t2 && !pyIsDigit t1 then true
  else if pyIsDigit t1 && pyIsDigit t2 && |pyInt t1 - pyInt t2| ≤ 2 then true
  else (pyTokens t1).any fun w => (pyTokens t2).contains w && decide (3 < w.length)

/-! ## `_merge_similar_boxes` -/

/-- Sort key of `results.sort(key=lambda x: (x['y_min'], x['x_min']))`:
lexicographic on `(y_min, x_min)`. -/
def lexLe (a b : Det) : Bool :=
  decide (a.yMin < b.yMin ∨ (a.yMin = b.yMin ∧ a.xMin ≤ b.xMin))

/-- The pairwise merge decision of the inner loop: substantial overlap, or
same row (vertical centre distance `< 15`), close horizontally
(gap `< 100`) and related texts. -/
def shouldMergePair (iou_threshold : ℚ) (a b : Det) : Bool :=
  decide (iou_threshold < calculate_iou a.bbox b.bbox) ||
    (decide (|a.centerY - b.centerY| < 15) &&
      decide (max 0 (b.xMin - a.xMax) < 100) &&
      should_merge_texts a.text b.text)

/-- The greedy grouping loop over positional indices into the sorted list:
a not-yet-used index seeds a group and claims every later unused index that
merges with the seed. -/
def outerGroups (iou_threshold : ℚ) (rs : List Det) :
    List ℕ → List ℕ → List (List ℕ)
  | [], _ => []
  | i :: rest, used =>
    if used.contains i then outerGroups iou_threshold rs rest used
    else
      let grp := i :: rest.filter fun j =>
        !used.contains j &&
          shouldMergePair iou_threshold (rs.getD i default) (rs.getD j default)
      grp :: outerGroups iou_threshold rs rest (used ++ grp)

/-- `min` over a non-empty list (`min(xs)` in the source). -/
def qMin : List ℚ → ℚ
  | [] => 0
  | x :: xs => xs.foldl min x

/-- `max` over a non-empty list. -/
def qMax : List ℚ → ℚ
  | [] => 0
  | x :: xs => xs.foldl max x

/-- `' '.join(l)`. -/
def pyJoin : List String → String
  | [] => ""
  | [x] => x
  | x :: y :: ys => x ++ " " ++ pyJoin (y :: ys)

/-- Fuse a cluster of size `> 1`: texts concatenated left-to-right by
`x_min` (stable sort), mean confidence, covering axis-aligned box,
`merged_from` set to the cluster size. -/
def mergeGroup (group : List Det) : Det :=
  let x_mins := group.map Det.xMin
  let y_mins := group.map Det.yMin
  let x_maxs := group.map Det.xMax
  let y_maxs := group.map Det.yMax
  let sorted_group := sortBy (fun a b => decide (a.xMin ≤ b.xMin)) group
  { bbox := ⟨(qMin x_mins, qMin y_mins), (qMax x_maxs, qMin y_mins),
      (qMax x_maxs, qMax y_maxs), (qMin x_mins, qMax y_maxs)⟩
    text := pyJoin (sorted_group.map Det.text)
    confidence := (group.map Det.confidence).sum / group.length
    merged_from := group.length }

/-- `_merge_similar_boxes(results, iou_threshold)`: sort by `(y_min, x_min)`,
group greedily, pass singleton groups through unchanged and fuse the rest. -/
def merge_similar_boxes (iou_threshold : ℚ) (results : List Det) : List Det :=
  if results.isEmpty then []
  else
    let sorted := sortBy lexLe results
    let groups := outerGroups iou_threshold sorted (List.range sorted.length) []
    groups.map fun g =>
      if g.length = 1 then sorted.getD (g.headD 0) default
      else mergeGroup (g.map fun i => sorted.getD i default)

/-! ## `_remove_duplicate_cases` -/

/-- The nested `text_similarity(text1, text2)` helper: `1.0` on substring
containment either way, otherwise the Jaccard index of the token sets
(`0.0` when a token set is empty). -/
def text_similarity (t1 t2 : String) : ℚ :=
  let a := pyStrip (pyLower t1)
  let b := pyStrip (pyLower t2)
  if pyIn a b || pyIn b a then 1
  else if pyWords a = ∅ ∨ pyWords b = ∅ then 0
  else ((pyWords a ∩ pyWords b).card : ℚ) / ((pyWords a ∪ pyWords b).card : ℚ)

/-- Sort key of `results.sort(key=..., reverse=True)`: confidence
descending. -/
def confDescLe (a b : Det) : Bool := decide (b.confidence ≤ a.confidence)

/-- The duplicate test a candidate `r` runs against an accepted `u`. -/
def isDuplicateOf (similarity_threshold : ℚ) (r u : Det) : Bool :=
  decide (similarity_threshold < text_similarity r.text u.text) ||
    decide (1 / 2 < calculate_iou r.bbox u.bbox)

/-- The greedy acceptance scan: keep a candidate unless some
already-accepted record is a duplicate of it. -/
def dedupLoop (similarity_threshold : ℚ) : List Det → List Det → List Det
  | [], acc => acc
  | r :: rest, acc =>
    if acc.any (isDuplicateOf similarity_threshold r) then
      dedupLoop similarity_threshold rest acc
    else dedupLoop similarity_threshold rest (acc ++ [r])

/-- `_remove_duplicate_cases(results, similarity_threshold)`: sort by
confidence descending (stable) and scan greedily. -/
def remove_duplicate_cases (similarity_threshold : ℚ) (results : List Det) :
    List Det :=
  if results.isEmpty then []
  else dedupLoop similarity_threshold (sortBy confDescLe results) []

/-! ## `is_actor_text`

The UML stereotype patterns of the source are regular expressions built
only from literal characters, `\s*` and an optional single character
(`s?`, `>?`); they are modelled by an explicit matcher for that pattern
language. -/

/-- One atom of a stereotype pattern. -/
inductive Tok : Type
  | lit (c : Char)
  | wsStar
  | optc (c : Char)
deriving DecidableEq

/-- Fuelled matcher: does the pattern match some leading segment of the
text?  Each step consumes a pattern atom or a text character, so fuel
`ps.length + ds.length + 1` always suffices. -/
def matchTokAux : ℕ → List Tok → List Char → Bool
  | 0, _, _ => false
  | _ + 1, [], _ => true
  | n + 1, Tok.lit c :: ps, ds =>
    match ds with
    | [] => false
    | d :: ds' => c == d && matchTokAux n ps ds'
  | n + 1, Tok.optc c :: ps, ds =>
    matchTokAux n ps ds ||
      (match ds with
       | [] => false
       | d :: ds' => c == d && matchTokAux n ps ds')
  | n + 1, Tok.wsStar :: ps, ds =>
    matchTokAux n ps ds ||
      (match ds with
       | [] => false
       | d :: ds' => d.isWhitespace && matchTokAux n (Tok.wsStar :: ps) ds')

/-- Match a pattern against a leading segment of the text. -/
def matchTok (ps : List Tok) (ds : List Char) : Bool :=
  matchTokAux (ps.length + ds.length + 1) ps ds

/-- `re.search`: does the pattern match starting at some position? -/
def reSearch (ps : List Tok) : List Char → Bool
  | [] => matchTok ps []
  | d :: ds => matchTok ps (d :: ds) || reSearch ps ds

/-- Literal characters of a pattern. -/
def lits (s : String) : List Tok := s.data.map Tok.lit

/-- The `uml_patterns` list of `is_actor_text`, in source order. -/
def umlPatterns : List (List Tok) :=
  [ lits "<<" ++ [Tok.wsStar] ++ lits "include" ++ [Tok.wsStar] ++ lits ">>",
    lits "<<" ++ [Tok.wsStar] ++ lits "extend" ++ [Tok.wsStar] ++ lits ">>",
    lits "<<" ++ [Tok.wsStar] ++ lits "include" ++ [Tok.optc 's'] ++
      [Tok.wsStar] ++ [Tok.lit '>'] ++ [Tok.optc '>'],
    lits "<<" ++ [Tok.wsStar] ++ lits "extend" ++ [Tok.optc 's'] ++
      [Tok.wsStar] ++ [Tok.lit '>'] ++ [Tok.optc '>'],
    lits "include" ++ [Tok.wsStar] ++ lits ">>",
    lits "extend" ++ [Tok.wsStar] ++ lits ">>",
    lits "<<" ++ [Tok.wsStar] ++ lits "include",
    lits "<<" ++ [Tok.wsStar] ++ lits "extend",
    lits "tend" ]

/-- The `uml_relations` keyword list, in source order (the source lists
`extend` twice). -/
def umlRelations : List String :=
  ["include", "extend", "includes", "extends", "includ", "extend"]

/-- The `arrow_patterns` list. -/
def arrowPatterns : List String := ["->", "-->", ">>", "<<"]

/-- `is_actor_text(text)`: blacklist containment match, stereotype keyword
match on the text with `<<`/`>>` stripped, stereotype pattern search, or
arrow glyph plus relation keyword. -/
def is_actor_text (actor_blacklist : List String) (text : String) : Bool :=
  let text_lower := pyStrip (pyLower text)
  let blacklisted := actor_blacklist.any fun actor_text =>
    let actor_text_lower := pyLower actor_text
    actor_text_lower == text_lower || pyIn actor_text_lower text_lower ||
      pyIn text_lower actor_text_lower
  let text_clean := pyStrip (pyReplace (pyReplace text_lower "<<" "") ">>" "")
  let keyword := umlRelations.any fun relation => pyIn relation text_clean
  let patterned := umlPatterns.any fun p => reSearch p text_lower.data
  let arrowed := arrowPatterns.any fun arrow =>
    pyIn arrow text &&
      (["include", "extend"].any fun word => pyIn word text_lower)
  blacklisted || keyword || patterned || arrowed

/-! ## The pipeline (`run_ocr`) -/

/-- One raw OCR hit as returned by the reader: box, text, confidence. -/
structure RawDet where
  bbox : Pt4
  text : String
  confidence : ℚ
deriving DecidableEq

/-- One final use-case record (`{'bbox': ..., 'text': ..., 'confidence': ...}`). -/
structure UseCaseRec where
  bbox : Pt4
  text : String
  confidence : ℚ
deriving DecidableEq

/-- The blacklist built at construction:
`[text.lower().strip() for text in actor_blacklist if text.strip()]`. -/
def mkActorBlacklist (actor_blacklist : List String) : List String :=
  (actor_blacklist.filter fun t => !(pyStrip t).isEmpty).map
    fun t => pyStrip (pyLower t)

/-- The normalization loop of `run_ocr`: drop low-confidence hits and hits
whose trimmed text is shorter than 2 characters; trim the text and expand
the box by the fixed margins 30 and 25, clamped to the image. -/
def processResults (width height confidence_threshold : ℚ)
    (raw : List RawDet) : List Det :=
  raw.filterMap fun r =>
    if r.confidence < confidence_threshold then none
    else if (pyStrip r.text).length < 2 then none
    else some
      { bbox := expand_bbox r.bbox 30 25 width height
        text := pyStrip r.text
        confidence := r.confidence
        merged_from := 1 }

/-- Stage output after normalization. -/
def afterNormalize (width height confidence_threshold : ℚ)
    (raw : List RawDet) : List Det :=
  processResults width height confidence_threshold raw

/-- Stage output after merging (`iou_threshold=0.2`). -/
def afterMerge (width height confidence_threshold : ℚ)
    (raw : List RawDet) : List Det :=
  merge_similar_boxes (1 / 5)
    (afterNormalize width height confidence_threshold raw)

/-- Stage output after duplicate elimination (`similarity_threshold=0.7`). -/
def afterDedup (width height confidence_threshold : ℚ)
    (raw : List RawDet) : List Det :=
  remove_duplicate_cases (7 / 10)
    (afterMerge width height confidence_threshold raw)

/-- The pure core of `run_ocr`: normalize, merge, deduplicate, then drop
every record whose text `is_actor_text` accepts. -/
def run_ocr (actor_blacklist : List String)
    (width height confidence_threshold : ℚ) (raw : List RawDet) :
    List UseCaseRec :=
  (afterDedup width height confidence_threshold raw).filterMap fun result =>
    if is_actor_text actor_blacklist result.text then none
    else some ⟨result.bbox, result.text, result.confidence⟩

/-! ## Concrete inputs used by the claim witnesses -/

/-- Numeric-label fragment `"44"` in a box at `x = 10`. -/
def det44 : Det := ⟨⟨(10, 0), (30, 0), (30, 10), (10, 10)⟩, "44", 9 / 10, 1⟩

/-- Description fragment in a box at `x = 60`, on the same row. -/
def detElim : Det :=
  ⟨⟨(60, 0), (160, 0), (160, 10), (60, 10)⟩, "Eliminar tipo de fuente", 1 / 2, 1⟩

/-- The fused label expected from merging `det44` with `detElim`. -/
def det44Elim : Det :=
  ⟨⟨(10, 0), (160, 0), (160, 10), (10, 10)⟩, "44 Eliminar tipo de fuente", 7 / 10, 2⟩

/-- A raw hit reading `"Actor1"`. -/
def rawActor : RawDet := ⟨⟨(0, 0), (40, 0), (40, 10), (0, 10)⟩, "Actor1", 9 / 10⟩

/-- A raw hit reading `"Crear pedido"` far below it. -/
def rawPedido : RawDet :=
  ⟨⟨(0, 200), (90, 200), (90, 210), (0, 210)⟩, "Crear pedido", 3 / 5⟩

/-- A raw hit reading `"<<include>>"` far below both. -/
def rawInclude : RawDet :=
  ⟨⟨(0, 400), (90, 400), (90, 410), (0, 410)⟩, "<<include>>", 4 / 5⟩

/-- A high-confidence detection with text `"Crear pedido"`. -/
def dupA : Det := ⟨⟨(0, 0), (90, 0), (90, 10), (0, 10)⟩, "Crear pedido", 9 / 10, 1⟩

/-- A far-away, lower-confidence near-duplicate of `dupA`. -/
def dupB : Det :=
  ⟨⟨(0, 500), (90, 500), (90, 510), (0, 510)⟩, "crear pedido", 1 / 2, 1⟩

/-- A detection whose text is whitespace only. -/
def dupWs : Det := ⟨⟨(0, 50), (40, 50), (40, 60), (0, 60)⟩, "   ", 1 / 3, 1⟩

/-- The final record produced from `rawPedido` by a run with margins 30/25
in a 1000 x 1000 image. -/
def ucPedido : UseCaseRec :=
  ⟨⟨(0, 175), (120, 175), (120, 235), (0, 235)⟩, "Crear pedido", 3 / 5⟩

/-! ## Sorting lemmas -/

theorem insertS_perm {α : Type} (le : α → α → Bool) (x : α) (l : List α) :
    (insertS le x l).Perm (x :: l) := by
  induction l with
  | nil => exact List.Perm.refl _
  | cons y ys ih =>
    simp only [insertS]
    split
    · exact ((ih.cons y).trans (List.Perm.swap x y ys))
    · exact List.Perm.refl _

theorem sortBy_perm {α : Type} (le : α → α → Bool) (l : List α) :
    (sortBy le l).Perm l := by
  induction l with
  | nil => exact List.Perm.refl _
  | cons x xs ih => exact (insertS_perm le x (sortBy le xs)).trans (ih.cons x)

theorem sortBy_length {α : Type} (le : α → α → Bool) (l : List α) :
    (sortBy le l).length = l.length :=
  (sortBy_perm le l).length_eq

theorem mem_insertS {α : Type} (le : α → α → Bool) (x : α) (l : List α) (z : α)
    (hz : z ∈ insertS le x l) : z = x ∨ z ∈ l := by
  have := (insertS_perm le x l).mem_iff.mp hz
  simpa using this

theorem insertS_pairwise {α : Type} (le : α → α → Bool)
    (total : ∀ a b, le a b = true ∨ le b a = true)
    (trans : ∀ a b c, le a b = true → le b c = true → le a c = true)
    (x : α) (l : List α) (hl : l.Pairwise (fun a b => le a b = true)) :
    (insertS le x l).Pairwise (fun a b => le a b = true) := by
  induction l with
  | nil => simp [insertS]
  | cons y ys ih =>
    rcases List.pairwise_cons.mp hl with ⟨hy, hys⟩
    simp only [insertS]
    split
    · rename_i hcond
      simp only [Bool.and_eq_true] at hcond
      refine List.pairwise_cons.mpr ⟨?_, ih hys⟩
      intro z hz
      rcases mem_insertS le x ys z hz with rfl | hz'
      · exact hcond.1
      · exact hy z hz'
    · rename_i hcond
      have hxy : le x y = true := by
        by_cases h1 : le x y = true
        · exact h1
        · exfalso
          have h2 : le y x = true := (total x y).resolve_left h1
          exact hcond (by simp [h2, h1])
      refine List.pairwise_cons.mpr ⟨?_, List.pairwise_cons.mpr ⟨hy, hys⟩⟩
      intro z hz
      rcases List.mem_cons.mp hz with rfl | hz'
      · exact hxy
      · exact trans x y z hxy (hy z hz')

theorem sortBy_pairwise {α : Type} (le : α → α → Bool)
    (total : ∀ a b, le a b = true ∨ le b a = true)
    (trans : ∀ a b c, le a b = true → le b c = true → le a c = true)
    (l : List α) : (sortBy le l).Pairwise (fun a b => le a b = true) := by
  induction l with
  | nil => simp [sortBy]
  | cons x xs ih => exact insertS_pairwise le total trans x (sortBy le xs) ih

theorem filter_insertS_conf_eq (c : ℚ) (x : Det) (l : List Det)
    (hx : x.confidence = c) :
    (insertS confDescLe x l).filter (fun d => decide (d.confidence = c)) =
      x :: l.filter (fun d => decide (d.confidence = c)) := by
  induction l with
  | nil => simp [insertS, hx]
  | cons y ys ih =>
    simp only [insertS]
    split
    · rename_i hcond
      simp only [Bool.and_eq_true, Bool.not_eq_true', confDescLe,
        decide_eq_true_eq, decide_eq_false_iff_not] at hcond
      have hyc : ¬(y.confidence = c) := by
        intro h
        exact hcond.2 (by rw [h, ← hx])
      simp [List.filter_cons, hyc, ih]
    · simp [List.filter_cons, hx]

theorem filter_insertS_conf_ne (c : ℚ) (x : Det) (l : List Det)
    (hx : x.confidence ≠ c) :
    (insertS confDescLe x l).filter (fun d => decide (d.confidence = c)) =
      l.filter (fun d => decide (d.confidence = c)) := by
  induction l with
  | nil => simp [insertS, hx]
  | cons y ys ih =>
    simp only [insertS]
    split
    · simp [List.filter_cons, ih]
    · simp [List.filter_cons, hx]

theorem sortBy_conf_filter (c : ℚ) (rs : List Det) :
    (sortBy confDescLe rs).filter (fun d => decide (d.confidence = c)) =
      rs.filter (fun d => decide (d.confidence = c)) := by
  induction rs with
  | nil => rfl
  | cons x xs ih =>
    show (insertS confDescLe x (sortBy confDescLe xs)).filter _ = _
    by_cases hx : x.confidence = c
    · rw [filter_insertS_conf_eq c x _ hx, ih, List.filter_cons,
        if_pos (by simp [hx])]
    · rw [filter_insertS_conf_ne c x _ hx, ih, List.filter_cons,
        if_neg (by simp [hx])]

/-! ## Duplicate-elimination lemmas -/

theorem dedupLoop_append (thr : ℚ) (l : List Det) :
    ∀ acc, ∃ t, dedupLoop thr l acc = acc ++ t ∧ t.Sublist l := by
  induction l with
  | nil => intro acc; exact ⟨[], by simp [dedupLoop], List.nil_sublist _⟩
  | cons r rest ih =>
    intro acc
    by_cases hc : acc.any (isDuplicateOf thr r) = true
    · obtain ⟨t, ht, hs⟩ := ih acc
      exact ⟨t, by simp [dedupLoop, hc, ht], hs.cons r⟩
    · obtain ⟨t, ht, hs⟩ := ih (acc ++ [r])
      refine ⟨r :: t, ?_, hs.cons₂ r⟩
      simp only [dedupLoop, hc, if_false]
      rw [ht, List.append_assoc]
      rfl

theorem dedupLoop_pairwise (thr : ℚ) (l : List Det) :
    ∀ acc, acc.Pairwise (fun u r => isDuplicateOf thr r u = false) →
      (dedupLoop thr l acc).Pairwise (fun u r => isDuplicateOf thr r u = false) := by
  induction l with
  | nil => intro acc h; simpa [dedupLoop] using h
  | cons r rest ih =>
    intro acc h
    by_cases hc : acc.any (isDuplicateOf thr r) = true
    · simpa [dedupLoop, hc] using ih acc h
    · have hall : ∀ u ∈ acc, isDuplicateOf thr r u = false := by
        intro u hu
        by_contra hne
        exact hc (List.any_eq_true.mpr ⟨u, hu, by simpa using hne⟩)
      have h' : (acc ++ [r]).Pairwise (fun u r => isDuplicateOf thr r u = false) := by
        refine List.pairwise_append.mpr ⟨h, by simp, ?_⟩
        intro u hu x hx
        rcases List.mem_singleton.mp hx with rfl
        exact hall u hu
      simpa [dedupLoop, hc] using ih (acc ++ [r]) h'

theorem dedupLoop_dropped (thr : ℚ) (l : List Det) :
    ∀ acc d, d ∈ l → d ∉ dedupLoop thr l acc →
      ∃ u ∈ dedupLoop thr l acc, isDuplicateOf thr d u = true := by
  induction l with
  | nil => intro acc d hd; exact absurd hd (List.not_mem_nil d)
  | cons r rest ih =>
    intro acc d hd hnot
    by_cases hc : acc.any (isDuplicateOf thr r) = true
    · simp only [dedupLoop, hc, if_true] at hnot ⊢
      rcases List.mem_cons.mp hd with rfl | hd'
      · obtain ⟨u, hu, hdup⟩ := List.any_eq_true.mp hc
        obtain ⟨t, ht, _⟩ := dedupLoop_append thr rest acc
        exact ⟨u, by rw [ht]; exact List.mem_append_left t hu, by simpa using hdup⟩
      · exact ih acc d hd' hnot
    · simp only [dedupLoop, hc, if_false] at hnot ⊢
      have hr : r ∈ dedupLoop thr rest (acc ++ [r]) := by
        obtain ⟨t, ht, _⟩ := dedupLoop_append thr rest (acc ++ [r])
        rw [ht]
        exact List.mem_append_left t (by simp)
      have hdr : d ≠ r := by
        intro h
        exact hnot (h ▸ hr)
      rcases List.mem_cons.mp hd with rfl | hd'
      · exact absurd rfl hdr
      · exact ih (acc ++ [r]) d hd' hnot

theorem confDescLe_total : ∀ a b : Det,
    confDescLe a b = true ∨ confDescLe b a = true := by
  intro a b
  simp only [confDescLe, decide_eq_true_eq]
  exact le_total b.confidence a.confidence

theorem confDescLe_trans : ∀ a b c : Det, confDescLe a b = true →
    confDescLe b c = true → confDescLe a c = true := by
  intro a b c hab hbc
  simp only [confDescLe, decide_eq_true_eq] at *
  exact le_trans hbc hab

/-- C5: the Duplicate Eliminator sorts by confidence descending with a stable
sort, scans in that order accepting a detection exactly when no
already-accepted detection has text similarity above the threshold or IoU
above one half, and returns the accepted detections in acceptance
(confidence-descending) order, so the highest-confidence representative of
each duplicate group is kept. -/
theorem remove_duplicate_cases_spec (thr : ℚ) (rs : List Det) :
    (sortBy confDescLe rs).Perm rs ∧
    (sortBy confDescLe rs).Pairwise (fun a b => b.confidence ≤ a.confidence) ∧
    (∀ c : ℚ, (sortBy confDescLe rs).filter (fun d => decide (d.confidence = c)) =
      rs.filter (fun d => decide (d.confidence = c))) ∧
    remove_duplicate_cases thr rs = dedupLoop thr (sortBy confDescLe rs) [] ∧
    (remove_duplicate_cases thr rs).Sublist (sortBy confDescLe rs) ∧
    (remove_duplicate_cases thr rs).Pairwise
      (fun u r => isDuplicateOf thr r u = false) ∧
    (∀ d ∈ sortBy confDescLe rs, d ∉ remove_duplicate_cases thr rs →
      ∃ u ∈ remove_duplicate_cases thr rs, isDuplicateOf thr d u = true) ∧
    (rs ≠ [] → remove_duplicate_cases thr rs ≠ [] ∧
      (remove_duplicate_cases thr rs).headD default =
        (sortBy confDescLe rs).headD default ∧
      ∀ d ∈ rs, d.confidence ≤
        ((remove_duplicate_cases thr rs).headD default).confidence) := by
  have hperm := sortBy_perm confDescLe rs
  have hpair := sortBy_pairwise confDescLe confDescLe_total confDescLe_trans rs
  have heq : remove_duplicate_cases thr rs =
      dedupLoop thr (sortBy confDescLe rs) [] := by
    by_cases h : rs.isEmpty
    · have : rs = [] := List.isEmpty_iff.mp h
      subst this
      simp [remove_duplicate_cases, sortBy, dedupLoop]
    · simp [remove_duplicate_cases, h]
  have hsub : (remove_duplicate_cases thr rs).Sublist (sortBy confDescLe rs) := by
    rw [heq]
    obtain ⟨t, ht, hs⟩ := dedupLoop_append thr (sortBy confDescLe rs) []
    rw [ht]
    simpa using hs
  refine ⟨hperm, ?_, fun c => sortBy_conf_filter c rs, heq, hsub, ?_, ?_, ?_⟩
  · exact hpair.imp fun h => by
      simpa only [confDescLe, decide_eq_true_eq] using h
  · rw [heq]
    exact dedupLoop_pairwise thr (sortBy confDescLe rs) [] (by simp)
  · intro d hd hnot
    rw [heq] at hnot ⊢
    exact dedupLoop_dropped thr (sortBy confDescLe rs) [] d hd hnot
  · intro hne
    have hsne : sortBy confDescLe rs ≠ [] := by
      intro h
      exact hne (List.Perm.nil_eq (h ▸ hperm)).symm
    obtain ⟨x, s', hx⟩ := List.exists_cons_of_ne_nil hsne
    have hloop : dedupLoop thr (sortBy confDescLe rs) [] =
        dedupLoop thr s' [x] := by
      rw [hx]
      simp [dedupLoop]
    obtain ⟨t, ht, _⟩ := dedupLoop_append thr s' [x]
    have hout : remove_duplicate_cases thr rs = x :: t := by
      rw [heq, hloop, ht]
      rfl
    refine ⟨by simp [hout], by simp [hout, hx], ?_⟩
    intro d hd
    have hd' : d ∈ sortBy confDescLe rs := hperm.symm.subset hd
    rw [hout]
    simp only [List.headD_cons]
    rw [hx] at hd' hpair
    rcases List.mem_cons.mp hd' with rfl | hd''
    · exact le_refl _
    · have := (List.pairwise_cons.mp hpair).1 d hd''
      simpa only [confDescLe, decide_eq_true_eq] using this

set_option maxRecDepth 8000 in
/-- Witness for C5 on a concrete duplicate pair: the lower-confidence
near-duplicate is dropped because of an accepted conflicting record, the
output is non-empty, and its head is the head of the confidence-sorted
input. -/
theorem remove_duplicate_cases_spec_witness :
    (∃ u ∈ remove_duplicate_cases (7 / 10) [dupB, dupA],
      isDuplicateOf (7 / 10) dupB u = true) ∧
    remove_duplicate_cases (7 / 10) [dupB, dupA] ≠ [] ∧
    (remove_duplicate_cases (7 / 10) [dupB, dupA]).headD default =
      (sortBy confDescLe [dupB, dupA]).headD default := by
  obtain ⟨-, -, -, -, -, -, h7, h8⟩ :=
    remove_duplicate_cases_spec (7 / 10) [dupB, dupA]
  obtain ⟨h8a, h8b, -⟩ := h8 (by simp)
  exact ⟨h7 dupB (by with_unfolding_all decide) (by with_unfolding_all decide),
    h8a, h8b⟩

set_option maxHeartbeats 1000000 in
/-- C4: `_should_merge_texts` returns true exactly when, after lowercasing
and trimming, one string contains the other, or exactly one of the two is
purely numeric, or both are numeric with values at most 2 apart, or the
token sets share a common token longer than 3 characters. -/
theorem should_merge_texts_iff (text1 text2 : String) :
    should_merge_texts text1 text2 = true ↔
      ((pyIn (pyStrip (pyLower text1)) (pyStrip (pyLower text2)) = true ∨
        pyIn (pyStrip (pyLower text2)) (pyStrip (pyLower text1)) = true) ∨
       (pyIsDigit (pyStrip (pyLower text1)) = true ∧
        pyIsDigit (pyStrip (pyLower text2)) = false) ∨
       (pyIsDigit (pyStrip (pyLower text2)) = true ∧
        pyIsDigit (pyStrip (pyLower text1)) = false) ∨
       (pyIsDigit (pyStrip (pyLower text1)) = true ∧
        pyIsDigit (pyStrip (pyLower text2)) = true ∧
        |pyInt (pyStrip (pyLower text1)) - pyInt (pyStrip (pyLower text2))| ≤ 2) ∨
       (∃ w, w ∈ pyTokens (pyStrip (pyLower text1)) ∧
         w ∈ pyTokens (pyStrip (pyLower text2)) ∧ 3 < w.length)) := by
  simp only [should_merge_texts]
  split_ifs with h1 h2 h3 h4
  · exact iff_of_true rfl (Or.inl (by simpa only [Bool.or_eq_true] using h1))
  · simp only [Bool.and_eq_true, Bool.not_eq_true'] at h2
    exact iff_of_true rfl (Or.inr (Or.inl h2))
  · simp only [Bool.and_eq_true, Bool.not_eq_true'] at h3
    exact iff_of_true rfl (Or.inr (Or.inr (Or.inl h3)))
  · simp only [Bool.and_eq_true, decide_eq_true_eq] at h4
    exact iff_of_true rfl (Or.inr (Or.inr (Or.inr (Or.inl ⟨h4.1.1, h4.1.2, h4.2⟩))))
  · simp only [Bool.or_eq_true, not_or] at h1
    simp only [Bool.and_eq_true, Bool.not_eq_true', not_and] at h2 h3
    simp only [Bool.and_eq_true, decide_eq_true_eq, not_and] at h4
    simp only [List.any_eq_true, Bool.and_eq_true, decide_eq_true_eq,
      List.elem_iff]
    constructor
    · rintro ⟨w, hw1, hw2, hw3⟩
      exact Or.inr (Or.inr (Or.inr (Or.inr ⟨w, hw1, hw2, hw3⟩)))
    · rintro ((ha | ha) | ⟨ha, hb⟩ | ⟨ha, hb⟩ | ⟨ha, hb, hc⟩ | ⟨w, hw1, hw2, hw3⟩)
      · exact absurd ha h1.1
      · exact absurd ha h1.2
      · exact absurd hb (by simpa using h2 ha)
      · exact absurd hb (by simpa using h3 ha)
      · exact absurd hc (h4 ⟨ha, hb⟩)
      · exact ⟨w, hw1, hw2, hw3⟩

/-- Witness for C4: two near item numbers merge via the numeric branch, and
texts sharing the long token `"beta"` merge via the common-token branch. -/
theorem should_merge_texts_iff_witness :
    should_merge_texts "45" "46" = true ∧
    should_merge_texts "alpha beta" "gamma beta" = true := by
  constructor
  · exact (should_merge_texts_iff "45" "46").mpr
      (Or.inr (Or.inr (Or.inr (Or.inl (by decide)))))
  · exact (should_merge_texts_iff "alpha beta" "gamma beta").mpr
      (Or.inr (Or.inr (Or.inr (Or.inr ⟨"beta", by decide, by decide, by decide⟩))))

/-! ## Empty-string behaviour of the similarity test -/

theorem listInf_nil_left (l : List Char) : listInf [] l = true := by
  cases l <;> simp [listInf, listPre]

theorem pyIn_of_data_nil (a b : String) (h : a.data = []) : pyIn a b = true := by
  simp only [pyIn, h]
  exact listInf_nil_left b.data

theorem text_similarity_left_empty (t1 t2 : String)
    (h : pyStrip (pyLower t1) = "") : text_similarity t1 t2 = 1 := by
  have : pyIn (pyStrip (pyLower t1)) (pyStrip (pyLower t2)) = true :=
    pyIn_of_data_nil _ _ (by rw [h])
  simp [text_similarity, this]

theorem text_similarity_right_empty (t1 t2 : String)
    (h : pyStrip (pyLower t2) = "") : text_similarity t1 t2 = 1 := by
  have : pyIn (pyStrip (pyLower t2)) (pyStrip (pyLower t1)) = true :=
    pyIn_of_data_nil _ _ (by rw [h])
  simp [text_similarity, this]

theorem wsTokensAux_eq_nil_iff (l : List Char) :
    ∀ cur, (wsTokensAux l cur = [] ↔ (∀ c ∈ l, c.isWhitespace = true) ∧ cur = []) := by
  induction l with
  | nil =>
    intro cur
    by_cases h : cur = [] <;> simp [wsTokensAux, h]
  | cons c cs ih =>
    intro cur
    by_cases hc : c.isWhitespace = true
    · by_cases hcur : cur = []
      · subst hcur
        simp [wsTokensAux, hc, ih []]
      · simp [wsTokensAux, hc, hcur]
    · simp only [wsTokensAux, hc, if_false, Bool.false_eq_true]
      rw [ih (c :: cur)]
      simp [hc]

theorem wsTokens_eq_nil_iff (l : List Char) :
    wsTokens l = [] ↔ ∀ c ∈ l, c.isWhitespace = true := by
  rw [wsTokens, wsTokensAux_eq_nil_iff l []]
  simp

theorem stripChars_not_all_ws (l : List Char) (h : stripChars l ≠ []) :
    ∃ c ∈ stripChars l, c.isWhitespace = false := by
  set m := (l.dropWhile Char.isWhitespace).reverse with hm
  have hne : m.dropWhile Char.isWhitespace ≠ [] := by
    intro hnil
    exact h (by simp [stripChars, ← hm, hnil])
  refine ⟨(m.dropWhile Char.isWhitespace).head hne, ?_, ?_⟩
  · rw [stripChars, ← hm]
    exact List.mem_reverse.mpr (List.head_mem hne)
  · have := List.head_dropWhile_not Char.isWhitespace m hne
    simpa using this

theorem pyWords_strip_ne_empty (x : String) (h : pyStrip x ≠ "") :
    pyWords (pyStrip x) ≠ ∅ := by
  have hdata : stripChars x.data ≠ [] := by
    intro hnil
    exact h (by simp [pyStrip, hnil])
  obtain ⟨c, hc, hcw⟩ := stripChars_not_all_ws x.data hdata
  intro hempty
  have htok : pyTokens (pyStrip x) = [] := by
    simpa [pyWords, List.toFinset_eq_empty_iff] using hempty
  have : wsTokens (pyStrip x).data = [] := by
    simpa [pyTokens] using htok
  have hall := (wsTokens_eq_nil_iff (pyStrip x).data).mp this
  have : c.isWhitespace = true := hall c (by simpa [pyStrip] using hc)
  simp [this] at hcw

/-- C10: if either argument of the nested `text_similarity` trims to the
empty string the function returns `1.0` through the substring branch, the
`0.0` branch for an empty token set is unreachable, and a whitespace-only
candidate is classified as a duplicate of every already-accepted record. -/
theorem text_similarity_whitespace (t1 : String)
    (h : pyStrip (pyLower t1) = "") :
    (∀ t2, text_similarity t1 t2 = 1 ∧ text_similarity t2 t1 = 1) ∧
    (∀ u1 u2 : String,
      (pyIn (pyStrip (pyLower u1)) (pyStrip (pyLower u2)) ||
        pyIn (pyStrip (pyLower u2)) (pyStrip (pyLower u1))) = false →
      pyWords (pyStrip (pyLower u1)) ≠ ∅ ∧ pyWords (pyStrip (pyLower u2)) ≠ ∅) ∧
    (∀ thr : ℚ, thr < 1 → ∀ (r : Det) (rest acc : List Det), r.text = t1 →
      acc ≠ [] → dedupLoop thr (r :: rest) acc = dedupLoop thr rest acc) := by
  refine ⟨fun t2 => ⟨text_similarity_left_empty t1 t2 h,
    text_similarity_right_empty t2 t1 h⟩, ?_, ?_⟩
  · intro u1 u2 hf
    simp only [Bool.or_eq_false_iff] at hf
    constructor
    · refine pyWords_strip_ne_empty (pyLower u1) fun he => ?_
      rw [pyIn_of_data_nil _ _ (by rw [he])] at hf
      exact Bool.true_eq_false.mp hf.1
    · refine pyWords_strip_ne_empty (pyLower u2) fun he => ?_
      rw [pyIn_of_data_nil (pyStrip (pyLower u2)) (pyStrip (pyLower u1))
        (by rw [he])] at hf
      exact Bool.true_eq_false.mp hf.2
  · intro thr hthr r rest acc hr hacc
    obtain ⟨u, us, rfl⟩ := List.exists_cons_of_ne_nil hacc
    have hdup : isDuplicateOf thr r u = true := by
      have hsim : text_similarity r.text u.text = 1 := by
        rw [hr]
        exact text_similarity_left_empty t1 u.text h
      simp [isDuplicateOf, hsim, hthr]
    have hany : (u :: us).any (isDuplicateOf thr r) = true := by
      simp [List.any_cons, hdup]
    simp [dedupLoop, hany]

/-- Witness for C10 at the whitespace-only text `"   "`: similarity `1`
against a real label, non-empty token sets for two unrelated labels, and the
whitespace-only candidate being dropped against a non-empty accepted list. -/
theorem text_similarity_whitespace_witness :
    text_similarity "   " "Crear pedido" = 1 ∧
    pyWords (pyStrip (pyLower "ab")) ≠ ∅ ∧
    dedupLoop (7 / 10) [dupWs] [dupA] = dedupLoop (7 / 10) [] [dupA] := by
  obtain ⟨h1, h2, h3⟩ := text_similarity_whitespace "   " (by decide)
  refine ⟨(h1 "Crear pedido").1, ?_, ?_⟩
  · exact (h2 "ab" "cd" (by decide)).1
  · exact h3 (7 / 10) (by norm_num) dupWs [] [dupA] rfl (by simp)


/-- C6: `_calculate_iou` is symmetric, always lands in `[0, 1]`, equals `1`
on any box whose first corner is its top-left and third corner its
bottom-right with positive area, and returns `0` when the rectangles do not
overlap or when the union area is `0`. -/
theorem calculate_iou_spec (a b : Pt4) :
    calculate_iou a b = calculate_iou b a ∧
    0 ≤ calculate_iou a b ∧
    calculate_iou a b ≤ 1 ∧
    (a.p0.1 < a.p2.1 → a.p0.2 < a.p2.2 → calculate_iou a a = 1) ∧
    ((min a.p2.1 b.p2.1 < max a.p0.1 b.p0.1 ∨
      min a.p2.2 b.p2.2 < max a.p0.2 b.p0.2) → calculate_iou a b = 0) ∧
    ((a.p2.1 - a.p0.1) * (a.p2.2 - a.p0.2) +
        (b.p2.1 - b.p0.1) * (b.p2.2 - b.p0.2) -
        (min a.p2.1 b.p2.1 - max a.p0.1 b.p0.1) *
          (min a.p2.2 b.p2.2 - max a.p0.2 b.p0.2) = 0 →
      calculate_iou a b = 0) := by
  have hzero : (min a.p2.1 b.p2.1 < max a.p0.1 b.p0.1 ∨
      min a.p2.2 b.p2.2 < max a.p0.2 b.p0.2) → calculate_iou a b = 0 := by
    intro h
    simp only [calculate_iou]
    rw [if_pos h]
  have hsym : calculate_iou a b = calculate_iou b a := by
    simp only [calculate_iou]
    rw [max_comm a.p0.1 b.p0.1, max_comm a.p0.2 b.p0.2,
      min_comm a.p2.1 b.p2.1, min_comm a.p2.2 b.p2.2]
    ring_nf
  have hbounds : 0 ≤ calculate_iou a b ∧ calculate_iou a b ≤ 1 := by
    by_cases h1 : (min a.p2.1 b.p2.1 < max a.p0.1 b.p0.1 ∨
        min a.p2.2 b.p2.2 < max a.p0.2 b.p0.2)
    · rw [hzero h1]
      norm_num
    · push_neg at h1
      obtain ⟨hx, hy⟩ := h1
      simp only [calculate_iou]
      rw [if_neg (by push_neg; exact ⟨hx, hy⟩)]
      set I := (min a.p2.1 b.p2.1 - max a.p0.1 b.p0.1) *
        (min a.p2.2 b.p2.2 - max a.p0.2 b.p0.2) with hI
      set u := (a.p2.1 - a.p0.1) * (a.p2.2 - a.p0.2) +
        (b.p2.1 - b.p0.1) * (b.p2.2 - b.p0.2) - I with hu
      by_cases h2 : 0 < u
      · rw [if_pos h2]
        have hI0 : 0 ≤ I := mul_nonneg (by linarith) (by linarith)
        have hIa : I ≤ (a.p2.1 - a.p0.1) * (a.p2.2 - a.p0.2) := by
          apply mul_le_mul
          · have := min_le_left a.p2.1 b.p2.1
            have := le_max_left a.p0.1 b.p0.1
            linarith
          · have := min_le_left a.p2.2 b.p2.2
            have := le_max_left a.p0.2 b.p0.2
            linarith
          · linarith
          · have := min_le_left a.p2.1 b.p2.1
            have := le_max_left a.p0.1 b.p0.1
            linarith
        have hIb : I ≤ (b.p2.1 - b.p0.1) * (b.p2.2 - b.p0.2) := by
          apply mul_le_mul
          · have := min_le_right a.p2.1 b.p2.1
            have := le_max_right a.p0.1 b.p0.1
            linarith
          · have := min_le_right a.p2.2 b.p2.2
            have := le_max_right a.p0.2 b.p0.2
            linarith
          · linarith
          · have := min_le_right a.p2.1 b.p2.1
            have := le_max_right a.p0.1 b.p0.1
            linarith
        constructor
        · exact div_nonneg hI0 (le_of_lt h2)
        · rw [div_le_one h2]
          linarith
      · rw [if_neg h2]
        norm_num
  refine ⟨hsym, hbounds.1, hbounds.2, ?_, hzero, ?_⟩
  · intro hx hy
    simp only [calculate_iou, min_self, max_self]
    rw [if_neg (by push_neg; constructor <;> linarith)]
    have harea : 0 < (a.p2.1 - a.p0.1) * (a.p2.2 - a.p0.2) :=
      mul_pos (by linarith) (by linarith)
    rw [if_pos (by linarith)]
    have : (a.p2.1 - a.p0.1) * (a.p2.2 - a.p0.2) +
        (a.p2.1 - a.p0.1) * (a.p2.2 - a.p0.2) -
        (a.p2.1 - a.p0.1) * (a.p2.2 - a.p0.2) =
        (a.p2.1 - a.p0.1) * (a.p2.2 - a.p0.2) := by ring
    rw [this]
    exact div_self (ne_of_gt harea)
  · intro hu0
    by_cases h1 : (min a.p2.1 b.p2.1 < max a.p0.1 b.p0.1 ∨
        min a.p2.2 b.p2.2 < max a.p0.2 b.p0.2)
    · exact hzero h1
    · simp only [calculate_iou]
      rw [if_neg h1, if_neg (by rw [hu0]; exact lt_irrefl 0)]

/-- Witness for C6: a concrete non-degenerate box has IoU `1` with itself,
two disjoint boxes have IoU `0`, and a zero-area box paired with itself has
IoU `0` through the union-area guard. -/
theorem calculate_iou_spec_witness :
    calculate_iou ⟨(0, 0), (40, 0), (40, 10), (0, 10)⟩
      ⟨(0, 0), (40, 0), (40, 10), (0, 10)⟩ = 1 ∧
    calculate_iou ⟨(0, 0), (40, 0), (40, 10), (0, 10)⟩
      ⟨(100, 0), (140, 0), (140, 10), (100, 10)⟩ = 0 ∧
    calculate_iou ⟨(0, 0), (10, 0), (10, 0), (0, 0)⟩
      ⟨(0, 0), (10, 0), (10, 0), (0, 0)⟩ = 0 := by
  refine ⟨?_, ?_, ?_⟩
  · exact (calculate_iou_spec ⟨(0, 0), (40, 0), (40, 10), (0, 10)⟩
      ⟨(0, 0), (40, 0), (40, 10), (0, 10)⟩).2.2.2.1 (by norm_num) (by norm_num)
  · exact (calculate_iou_spec ⟨(0, 0), (40, 0), (40, 10), (0, 10)⟩
      ⟨(100, 0), (140, 0), (140, 10), (100, 10)⟩).2.2.2.2.1
      (Or.inl (by norm_num))
  · exact (calculate_iou_spec ⟨(0, 0), (10, 0), (10, 0), (0, 0)⟩
      ⟨(0, 0), (10, 0), (10, 0), (0, 0)⟩).2.2.2.2.2 (by norm_num)

theorem Pt4.xMin_le_xMax (b : Pt4) : b.xMin ≤ b.xMax := by
  simp [Pt4.xMin, Pt4.xMax, min_le_iff, le_max_iff]

theorem Pt4.yMin_le_yMax (b : Pt4) : b.yMin ≤ b.yMax := by
  simp [Pt4.yMin, Pt4.yMax, min_le_iff, le_max_iff]

/-- C7 (amended): for nonnegative margins and an input box whose corners all
lie inside the image, `_expand_bbox` returns the axis-aligned rectangle with
corners in top-left, top-right, bottom-right, bottom-left order obtained by
growing the envelope by the margins and clamping to the image, its low
corner is at most its high corner, and every returned coordinate lies within
`[0, width] x [0, height]`. -/
theorem expand_bbox_spec (bbox : Pt4) (ex ey W H : ℚ) (hex : 0 ≤ ex)
    (hey : 0 ≤ ey)
    (hin : ∀ p ∈ bbox.pts, 0 ≤ p.1 ∧ p.1 ≤ W ∧ 0 ≤ p.2 ∧ p.2 ≤ H) :
    expand_bbox bbox ex ey W H =
      ⟨(max 0 (bbox.xMin - ex), max 0 (bbox.yMin - ey)),
       (min W (bbox.xMax + ex), max 0 (bbox.yMin - ey)),
       (min W (bbox.xMax + ex), min H (bbox.yMax + ey)),
       (max 0 (bbox.xMin - ex), min H (bbox.yMax + ey))⟩ ∧
    max 0 (bbox.xMin - ex) ≤ min W (bbox.xMax + ex) ∧
    max 0 (bbox.yMin - ey) ≤ min H (bbox.yMax + ey) ∧
    ∀ p ∈ (expand_bbox bbox ex ey W H).pts,
      0 ≤ p.1 ∧ p.1 ≤ W ∧ 0 ≤ p.2 ∧ p.2 ≤ H := by
  obtain ⟨h00, h01, h02, h03⟩ := hin bbox.p0 (by simp [Pt4.pts])
  obtain ⟨h10, h11, h12, h13⟩ := hin bbox.p1 (by simp [Pt4.pts])
  obtain ⟨h20, h21, h22, h23⟩ := hin bbox.p2 (by simp [Pt4.pts])
  obtain ⟨h30, h31, h32, h33⟩ := hin bbox.p3 (by simp [Pt4.pts])
  have hxmin0 : 0 ≤ bbox.xMin := by
    simp only [Pt4.xMin, le_min_iff]
    exact ⟨⟨⟨h00, h10⟩, h20⟩, h30⟩
  have hymin0 : 0 ≤ bbox.yMin := by
    simp only [Pt4.yMin, le_min_iff]
    exact ⟨⟨⟨h02, h12⟩, h22⟩, h32⟩
  have hxmaxW : bbox.xMax ≤ W := by
    simp only [Pt4.xMax, max_le_iff]
    exact ⟨⟨⟨h01, h11⟩, h21⟩, h31⟩
  have hymaxH : bbox.yMax ≤ H := by
    simp only [Pt4.yMax, max_le_iff]
    exact ⟨⟨⟨h03, h13⟩, h23⟩, h33⟩
  have hxx := bbox.xMin_le_xMax
  have hyy := bbox.yMin_le_yMax
  have hW0 : 0 ≤ W := le_trans h00 h01
  have hH0 : 0 ≤ H := le_trans h02 h03
  have hx1 : 0 ≤ max 0 (bbox.xMin - ex) := le_max_left 0 _
  have hx2 : max 0 (bbox.xMin - ex) ≤ W :=
    max_le hW0 (by linarith)
  have hx3 : 0 ≤ min W (bbox.xMax + ex) :=
    le_min hW0 (by linarith)
  have hx4 : min W (bbox.xMax + ex) ≤ W := min_le_left _ _
  have hy1 : 0 ≤ max 0 (bbox.yMin - ey) := le_max_left 0 _
  have hy2 : max 0 (bbox.yMin - ey) ≤ H :=
    max_le hH0 (by linarith)
  have hy3 : 0 ≤ min H (bbox.yMax + ey) :=
    le_min hH0 (by linarith)
  have hy4 : min H (bbox.yMax + ey) ≤ H := min_le_left _ _
  refine ⟨rfl, ?_, ?_, ?_⟩
  · exact max_le hx3 (le_min (by linarith) (by linarith))
  · exact max_le hy3 (le_min (by linarith) (by linarith))
  · intro p hp
    simp only [expand_bbox, Pt4.pts, List.mem_cons, List.not_mem_nil,
      or_false] at hp
    rcases hp with rfl | rfl | rfl | rfl <;>
      exact ⟨by assumption, by assumption, by assumption, by assumption⟩

/-- Counterexample for C7 as stated: for an input box lying beyond the image
(all x around 200 in a width-100 image), the returned box has a coordinate
outside the image bounds, because the source only clamps the low corner from
below and the high corner from above. -/
theorem expand_bbox_counterexample :
    ¬ ∀ p ∈ (expand_bbox ⟨(200, 50), (210, 50), (210, 60), (200, 60)⟩
        30 25 100 100).pts, 0 ≤ p.1 ∧ p.1 ≤ 100 ∧ 0 ≤ p.2 ∧ p.2 ≤ 100 := by
  with_unfolding_all decide

/-- Witness for C7 (amended) on an in-image box with the pipeline's margins:
the expanded low corner stays at most the high corner and the expanded
top-left corner stays inside the image. -/
theorem expand_bbox_spec_witness :
    max 0 ((⟨(60, 0), (160, 0), (160, 10), (60, 10)⟩ : Pt4).xMin - 30) ≤
      min 1000 ((⟨(60, 0), (160, 0), (160, 10), (60, 10)⟩ : Pt4).xMax + 30) ∧
    (0 ≤ (expand_bbox ⟨(60, 0), (160, 0), (160, 10), (60, 10)⟩
        30 25 1000 1000).p0.1 ∧
      (expand_bbox ⟨(60, 0), (160, 0), (160, 10), (60, 10)⟩
        30 25 1000 1000).p0.1 ≤ 1000 ∧
      0 ≤ (expand_bbox ⟨(60, 0), (160, 0), (160, 10), (60, 10)⟩
        30 25 1000 1000).p0.2 ∧
      (expand_bbox ⟨(60, 0), (160, 0), (160, 10), (60, 10)⟩
        30 25 1000 1000).p0.2 ≤ 1000) := by
  obtain ⟨-, h2, -, h4⟩ :=
    expand_bbox_spec ⟨(60, 0), (160, 0), (160, 10), (60, 10)⟩ 30 25 1000 1000
      (by norm_num) (by norm_num) (by norm_num [Pt4.pts])
  exact ⟨h2, h4 _ (by simp [Pt4.pts])⟩

/-! ## Stage length bounds -/

theorem outerGroups_length_le (thr : ℚ) (rs : List Det) :
    ∀ (pending used : List ℕ),
      (outerGroups thr rs pending used).length ≤ pending.length := by
  intro pending
  induction pending with
  | nil => intro used; simp [outerGroups]
  | cons i rest ih =>
    intro used
    simp only [outerGroups]
    split
    · exact le_trans (ih used) (by simp)
    · simpa using Nat.succ_le_succ (ih _)

theorem merge_similar_boxes_length_le (thr : ℚ) (l : List Det) :
    (merge_similar_boxes thr l).length ≤ l.length := by
  by_cases h : l.isEmpty
  · simp [merge_similar_boxes, h]
  · simp only [merge_similar_boxes]
    rw [if_neg h, List.length_map]
    calc (outerGroups thr (sortBy lexLe l)
        (List.range (sortBy lexLe l).length) []).length
        ≤ (List.range (sortBy lexLe l).length).length :=
          outerGroups_length_le thr _ _ _
      _ = l.length := by rw [List.length_range, sortBy_length]

theorem remove_duplicate_cases_length_le (thr : ℚ) (l : List Det) :
    (remove_duplicate_cases thr l).length ≤ l.length := by
  by_cases h : l.isEmpty
  · simp [remove_duplicate_cases, h]
  · simp only [remove_duplicate_cases]
    rw [if_neg h]
    obtain ⟨t, ht, hs⟩ := dedupLoop_append thr (sortBy confDescLe l) []
    rw [ht]
    simpa [sortBy_length] using hs.length_le

/-- C8: the pipeline never grows its list: the final output is no longer
than the dedup stage, which is no longer than the merge stage, which is no
longer than the normalization stage, which is no longer than the raw input;
and the Merger, Deduplicator and Normalizer each shrink any list they are
given. -/
theorem pipeline_monotone_lengths (bl : List String) (W H thr : ℚ)
    (raw : List RawDet) :
    (run_ocr bl W H thr raw).length ≤ (afterDedup W H thr raw).length ∧
    (afterDedup W H thr raw).length ≤ (afterMerge W H thr raw).length ∧
    (afterMerge W H thr raw).length ≤ (afterNormalize W H thr raw).length ∧
    (afterNormalize W H thr raw).length ≤ raw.length ∧
    (∀ l : List Det, (merge_similar_boxes thr l).length ≤ l.length) ∧
    (∀ l : List Det, (remove_duplicate_cases thr l).length ≤ l.length) ∧
    (∀ l : List RawDet, (processResults W H thr l).length ≤ l.length) := by
  refine ⟨List.length_filterMap_le _ _,
    remove_duplicate_cases_length_le _ _,
    merge_similar_boxes_length_le _ _,
    List.length_filterMap_le _ _,
    fun l => merge_similar_boxes_length_le _ _,
    fun l => remove_duplicate_cases_length_le _ _,
    fun l => List.length_filterMap_le _ _⟩

theorem contains_of_mem {l : List ℕ} {a : ℕ} (h : a ∈ l) :
    l.contains a = true := List.elem_iff.mpr h

theorem contains_of_not_mem {l : List ℕ} {a : ℕ} (h : a ∉ l) :
    l.contains a = false := by
  cases hc : l.contains a
  · rfl
  · exact absurd (List.elem_iff.mp hc) h

theorem filter_and_append_perm (A B : ℕ → Bool) (l : List ℕ) :
    (l.filter (fun j => A j && B j) ++
      l.filter (fun j => A j && !B j)).Perm (l.filter A) := by
  induction l with
  | nil => simp
  | cons x xs ih =>
    by_cases hA : A x = true
    · by_cases hB : B x = true
      · simp only [List.filter_cons, hA, hB, Bool.and_true, Bool.and_self,
          Bool.not_true, Bool.and_false, if_true, if_false]
        simpa [hA, hB] using ih.cons x
      · have hBf : B x = false := by
          cases hb : B x
          · rfl
          · exact absurd hb hB
        simp only [List.filter_cons, hA, hBf, Bool.and_false, Bool.not_false,
          Bool.and_true, if_true, if_false]
        refine List.Perm.trans ?_ ((ih.cons x).trans (by simp [hA]))
        exact List.perm_middle
    · have hAf : A x = false := by
        cases ha : A x
        · rfl
        · exact absurd ha hA
      simpa [List.filter_cons, hAf] using ih

theorem outerGroups_ne_nil (thr : ℚ) (rs : List Det) :
    ∀ (pending used : List ℕ), ∀ g ∈ outerGroups thr rs pending used, g ≠ [] := by
  intro pending
  induction pending with
  | nil => intro used g hg; simp [outerGroups] at hg
  | cons i rest ih =>
    intro used g hg
    simp only [outerGroups] at hg
    split at hg
    · exact ih used g hg
    · rcases List.mem_cons.mp hg with rfl | hg'
      · simp
      · exact ih _ g hg'

theorem outerGroups_flatten_perm (thr : ℚ) (rs : List Det) :
    ∀ (pending used : List ℕ), pending.Nodup →
      (outerGroups thr rs pending used).flatten.Perm
        (pending.filter fun i => !used.contains i) := by
  intro pending
  induction pending with
  | nil => intro used _; simp [outerGroups]
  | cons i rest ih =>
    intro used hnd
    have hi : i ∉ rest := (List.nodup_cons.mp hnd).1
    have hnd' : rest.Nodup := (List.nodup_cons.mp hnd).2
    by_cases hu : used.contains i = true
    · simp only [outerGroups, hu, if_true, List.filter_cons, Bool.not_true,
        Bool.false_eq_true, if_false]
      exact ih used hnd'
    · have huf : used.contains i = false := by
        cases hc : used.contains i
        · rfl
        · exact absurd hc hu
      simp only [outerGroups]
      rw [if_neg hu, List.flatten_cons]
      have hfc : (i :: rest).filter (fun j => !used.contains j) =
          i :: rest.filter (fun j => !used.contains j) := by
        rw [List.filter_cons, if_pos (by rw [huf]; rfl)]
      rw [hfc]
      show (i :: (rest.filter fun j => !used.contains j &&
          shouldMergePair thr (rs.getD i default) (rs.getD j default)) ++
            (outerGroups thr rs rest _).flatten).Perm _
      rw [List.cons_append]
      refine List.Perm.cons i ?_
      have e1 : rest.filter (fun j =>
          !(used ++ i :: rest.filter (fun j => !used.contains j &&
            shouldMergePair thr (rs.getD i default) (rs.getD j default))).contains j) =
          rest.filter (fun j => !used.contains j &&
            !(shouldMergePair thr (rs.getD i default) (rs.getD j default))) := by
        apply List.filter_congr
        intro j hj
        have hji : j ≠ i := fun h => hi (h ▸ hj)
        by_cases hju : j ∈ used
        · rw [contains_of_mem (List.mem_append_left _ hju),
            contains_of_mem hju]
          rfl
        · rw [contains_of_not_mem hju]
          by_cases hjP : shouldMergePair thr (rs.getD i default)
              (rs.getD j default) = true
          · have hjC : j ∈ rest.filter (fun j => !used.contains j &&
                shouldMergePair thr (rs.getD i default) (rs.getD j default)) :=
              List.mem_filter.mpr ⟨hj, by rw [contains_of_not_mem hju, hjP]; rfl⟩
            rw [contains_of_mem
              (List.mem_append_right _ (List.mem_cons_of_mem _ hjC)), hjP]
            rfl
          · have hjPf : shouldMergePair thr (rs.getD i default)
                (rs.getD j default) = false := by
              cases hc : shouldMergePair thr (rs.getD i default) (rs.getD j default)
              · rfl
              · exact absurd hc hjP
            have hnotC : j ∉ used ++ i :: rest.filter (fun j =>
                !used.contains j && shouldMergePair thr (rs.getD i default)
                  (rs.getD j default)) := by
              intro hmem
              rcases List.mem_append.mp hmem with h | h
              · exact hju h
              · rcases List.mem_cons.mp h with h' | h'
                · exact hji h'
                · have := (List.mem_filter.mp h').2
                  rw [hjPf] at this
                  simp at this
            rw [contains_of_not_mem hnotC, hjPf]
            rfl
      have h1 := (ih (used ++ i :: rest.filter fun j => !used.contains j &&
          shouldMergePair thr (rs.getD i default) (rs.getD j default))
        hnd').append_left (rest.filter fun j =>
        !used.contains j &&
          shouldMergePair thr (rs.getD i default) (rs.getD j default))
      rw [e1] at h1
      exact h1.trans (filter_and_append_perm (fun j => !used.contains j)
        (fun j => shouldMergePair thr (rs.getD i default) (rs.getD j default))
        rest)

/-- C9: the greedy `used_ids` bookkeeping of `_merge_similar_boxes`
partitions the input: the concatenation of the index groups is a permutation
of all positional indices, and consequently the `merged_from` counts over
the merger's output (1 for records passed through unmerged) sum to the
length of the input list. -/
theorem merge_partition (thr : ℚ) (rs : List Det)
    (hone : ∀ d ∈ rs, d.merged_from = 1) :
    (outerGroups thr (sortBy lexLe rs)
        (List.range (sortBy lexLe rs).length) []).flatten.Perm
      (List.range rs.length) ∧
    ((merge_similar_boxes thr rs).map Det.merged_from).sum = rs.length := by
  have hlen : (sortBy lexLe rs).length = rs.length := sortBy_length _ _
  have hfl := outerGroups_flatten_perm thr (sortBy lexLe rs)
    (List.range (sortBy lexLe rs).length) [] (List.nodup_range _)
  have hfilter : (List.range (sortBy lexLe rs).length).filter
      (fun i => !([] : List ℕ).contains i) =
      List.range (sortBy lexLe rs).length := by
    simp
  rw [hfilter, hlen] at hfl
  constructor
  · rw [hlen]
    exact hfl
  by_cases hrs : rs.isEmpty
  · have : rs = [] := List.isEmpty_iff.mp hrs
    subst this
    simp [merge_similar_boxes]
  · simp only [merge_similar_boxes]
    rw [if_neg hrs, List.map_map, hlen]
    have hmf : ∀ g ∈ outerGroups thr (sortBy lexLe rs)
        (List.range rs.length) [],
        (Det.merged_from ∘ fun g =>
          if g.length = 1 then (sortBy lexLe rs).getD (g.headD 0) default
          else mergeGroup (g.map fun i => (sortBy lexLe rs).getD i default))
          g = g.length := by
      intro g hg
      by_cases hg1 : g.length = 1
      · obtain ⟨j, rfl⟩ := List.length_eq_one.mp hg1
        have hjmem : j ∈ (outerGroups thr (sortBy lexLe rs)
            (List.range rs.length) []).flatten :=
          List.mem_flatten.mpr ⟨[j], hg, by simp⟩
        have hjn : j < rs.length := by
          have := hfl.mem_iff.mp hjmem
          simpa using this
        have hjs : j < (sortBy lexLe rs).length := by rw [hlen]; exact hjn
        have hget : (sortBy lexLe rs).getD j default ∈ sortBy lexLe rs := by
          rw [List.getD_eq_getElem _ _ hjs]
          exact List.getElem_mem hjs
        have hmem : (sortBy lexLe rs).getD j default ∈ rs :=
          (sortBy_perm lexLe rs).subset hget
        simp only [Function.comp_apply, List.headD_cons, if_pos hg1]
        simpa using hone _ hmem
      · simp only [Function.comp_apply, if_neg hg1]
        show (mergeGroup (g.map fun i =>
          (sortBy lexLe rs).getD i default)).merged_from = g.length
        simp [mergeGroup]
    rw [List.map_congr_left hmf]
    have := List.length_flatten (outerGroups thr (sortBy lexLe rs)
      (List.range rs.length) [])
    rw [← this, hfl.length_eq, List.length_range]

/-- Witness for C9 on the two-fragment example: the groups cover indices
`{0, 1}` exactly once and the output's `merged_from` counts sum to `2`. -/
theorem merge_partition_witness :
    (outerGroups (1 / 5) (sortBy lexLe [det44, detElim])
        (List.range (sortBy lexLe [det44, detElim]).length) []).flatten.Perm
      (List.range ([det44, detElim] : List Det).length) ∧
    ((merge_similar_boxes (1 / 5) [det44, detElim]).map Det.merged_from).sum =
      ([det44, detElim] : List Det).length :=
  merge_partition (1 / 5) [det44, detElim] (by decide)

/-! ## Envelope lemmas for merged clusters -/

theorem foldl_min_le (as : List ℚ) :
    ∀ a : ℚ, as.foldl min a ≤ a ∧ ∀ x ∈ as, as.foldl min a ≤ x := by
  induction as with
  | nil => intro a; simp
  | cons b bs ih =>
    intro a
    obtain ⟨h1, h2⟩ := ih (min a b)
    refine ⟨le_trans h1 (min_le_left a b), ?_⟩
    intro x hx
    rcases List.mem_cons.mp hx with rfl | hx'
    · exact le_trans h1 (min_le_right a x)
    · exact h2 x hx'

theorem le_foldl_min (as : List ℚ) :
    ∀ a c : ℚ, c ≤ a → (∀ x ∈ as, c ≤ x) → c ≤ as.foldl min a := by
  induction as with
  | nil => intro a c h _; simpa using h
  | cons b bs ih =>
    intro a c ha hall
    exact ih (min a b) c (le_min ha (hall b (by simp)))
      fun x hx => hall x (by simp [hx])

theorem le_foldl_max (as : List ℚ) :
    ∀ a : ℚ, a ≤ as.foldl max a ∧ ∀ x ∈ as, x ≤ as.foldl max a := by
  induction as with
  | nil => intro a; simp
  | cons b bs ih =>
    intro a
    obtain ⟨h1, h2⟩ := ih (max a b)
    refine ⟨le_trans (le_max_left a b) h1, ?_⟩
    intro x hx
    rcases List.mem_cons.mp hx with rfl | hx'
    · exact le_trans (le_max_right a x) h1
    · exact h2 x hx'

theorem foldl_max_le (as : List ℚ) :
    ∀ a c : ℚ, a ≤ c → (∀ x ∈ as, x ≤ c) → as.foldl max a ≤ c := by
  induction as with
  | nil => intro a c h _; simpa using h
  | cons b bs ih =>
    intro a c ha hall
    exact ih (max a b) c (max_le ha (hall b (by simp)))
      fun x hx => hall x (by simp [hx])

theorem qMin_le {l : List ℚ} {x : ℚ} (h : x ∈ l) : qMin l ≤ x := by
  match l, h with
  | a :: as, h =>
    rcases List.mem_cons.mp h with rfl | h'
    · exact (foldl_min_le as x).1
    · exact (foldl_min_le as a).2 x h'

theorem le_qMin {l : List ℚ} {c : ℚ} (hne : l ≠ [])
    (h : ∀ x ∈ l, c ≤ x) : c ≤ qMin l := by
  match l, hne with
  | a :: as, _ =>
    exact le_foldl_min as a c (h a (by simp)) fun x hx => h x (by simp [hx])

theorem le_qMax {l : List ℚ} {x : ℚ} (h : x ∈ l) : x ≤ qMax l := by
  match l, h with
  | a :: as, h =>
    rcases List.mem_cons.mp h with rfl | h'
    · exact (le_foldl_max as x).1
    · exact (le_foldl_max as a).2 x h'

theorem qMax_le {l : List ℚ} {c : ℚ} (hne : l ≠ [])
    (h : ∀ x ∈ l, x ≤ c) : qMax l ≤ c := by
  match l, hne with
  | a :: as, _ =>
    exact foldl_max_le as a c (h a (by simp)) fun x hx => h x (by simp [hx])

theorem mergeGroup_envelope (g : List Det) (hg : g ≠ []) :
    (mergeGroup g).xMin = qMin (g.map Det.xMin) ∧
    (mergeGroup g).xMax = qMax (g.map Det.xMax) ∧
    (mergeGroup g).yMin = qMin (g.map Det.yMin) ∧
    (mergeGroup g).yMax = qMax (g.map Det.yMax) := by
  obtain ⟨d0, g', rfl⟩ := List.exists_cons_of_ne_nil hg
  have hx : qMin ((d0 :: g').map Det.xMin) ≤ qMax ((d0 :: g').map Det.xMax) :=
    le_trans (qMin_le (by simp : d0.xMin ∈ _))
      (le_trans d0.bbox.xMin_le_xMax (le_qMax (by simp : d0.xMax ∈ _)))
  have hy : qMin ((d0 :: g').map Det.yMin) ≤ qMax ((d0 :: g').map Det.yMax) :=
    le_trans (qMin_le (by simp : d0.yMin ∈ _))
      (le_trans d0.bbox.yMin_le_yMax (le_qMax (by simp : d0.yMax ∈ _)))
  refine ⟨?_, ?_, ?_, ?_⟩
  · show Pt4.xMin _ = _
    simp only [mergeGroup, Pt4.xMin]
    rw [min_eq_left hx, min_eq_left hx, min_self]
  · show Pt4.xMax _ = _
    simp only [mergeGroup, Pt4.xMax]
    rw [max_eq_right hx, max_self, max_eq_left hx]
  · show Pt4.yMin _ = _
    simp only [mergeGroup, Pt4.yMin]
    rw [min_self, min_eq_left hy, min_eq_left hy]
  · show Pt4.yMax _ = _
    simp only [mergeGroup, Pt4.yMax]
    rw [max_self, max_eq_right hy, max_self]

/-- C3: a cluster fused by the Fragment Merger carries the member texts
joined by single spaces in left-to-right `x_min` order, the arithmetic mean
of the member confidences, the smallest axis-aligned rectangle covering
every member envelope, and `merged_from` equal to the cluster size; in
particular merging `"44"` (box at `x = 10`) with
`"Eliminar tipo de fuente"` (box at `x = 60`, same row) yields one detection
with text `"44 Eliminar tipo de fuente"`. -/
theorem mergeGroup_spec (g : List Det) (hg : g ≠ []) :
    (mergeGroup g).text =
      pyJoin ((sortBy (fun a b => decide (a.xMin ≤ b.xMin)) g).map Det.text) ∧
    (mergeGroup g).confidence = (g.map Det.confidence).sum / g.length ∧
    (mergeGroup g).merged_from = g.length ∧
    (mergeGroup g).bbox =
      ⟨(qMin (g.map Det.xMin), qMin (g.map Det.yMin)),
       (qMax (g.map Det.xMax), qMin (g.map Det.yMin)),
       (qMax (g.map Det.xMax), qMax (g.map Det.yMax)),
       (qMin (g.map Det.xMin), qMax (g.map Det.yMax))⟩ ∧
    (∀ d ∈ g, (mergeGroup g).xMin ≤ d.xMin ∧ d.xMax ≤ (mergeGroup g).xMax ∧
      (mergeGroup g).yMin ≤ d.yMin ∧ d.yMax ≤ (mergeGroup g).yMax) ∧
    (∀ x0 x1 y0 y1 : ℚ,
      (∀ d ∈ g, x0 ≤ d.xMin ∧ d.xMax ≤ x1 ∧ y0 ≤ d.yMin ∧ d.yMax ≤ y1) →
      x0 ≤ (mergeGroup g).xMin ∧ (mergeGroup g).xMax ≤ x1 ∧
        y0 ≤ (mergeGroup g).yMin ∧ (mergeGroup g).yMax ≤ y1) ∧
    merge_similar_boxes (1 / 5) [det44, detElim] = [det44Elim] := by
  obtain ⟨hx, hX, hy, hY⟩ := mergeGroup_envelope g hg
  have hmapne : ∀ f : Det → ℚ, g.map f ≠ [] := by
    intro f h
    exact hg (List.map_eq_nil_iff.mp h)
  refine ⟨rfl, rfl, rfl, rfl, ?_, ?_, ?_⟩
  · intro d hd
    rw [hx, hX, hy, hY]
    exact ⟨qMin_le (List.mem_map_of_mem _ hd),
      le_qMax (List.mem_map_of_mem _ hd),
      qMin_le (List.mem_map_of_mem _ hd),
      le_qMax (List.mem_map_of_mem _ hd)⟩
  · intro x0 x1 y0 y1 hb
    rw [hx, hX, hy, hY]
    refine ⟨le_qMin (hmapne _) ?_, qMax_le (hmapne _) ?_,
      le_qMin (hmapne _) ?_, qMax_le (hmapne _) ?_⟩ <;>
      · intro v hv
        obtain ⟨d, hd, rfl⟩ := List.mem_map.mp hv
        have := hb d hd
        tauto
  · with_unfolding_all decide

/-- Witness for C3 on the concrete two-fragment cluster: the fused record's
fields and the covering-envelope bounds hold for `[det44, detElim]`. -/
theorem mergeGroup_spec_witness :
    (mergeGroup [det44, detElim]).merged_from = 2 ∧
    ((mergeGroup [det44, detElim]).xMin ≤ det44.xMin ∧
      det44.xMax ≤ (mergeGroup [det44, detElim]).xMax ∧
      (mergeGroup [det44, detElim]).yMin ≤ det44.yMin ∧
      det44.yMax ≤ (mergeGroup [det44, detElim]).yMax) ∧
    merge_similar_boxes (1 / 5) [det44, detElim] = [det44Elim] := by
  obtain ⟨-, -, h3, -, h5, -, h7⟩ :=
    mergeGroup_spec [det44, detElim] (by simp)
  exact ⟨h3, h5 det44 (by simp), h7⟩

/-! ## Substring facts for the blacklist filter -/

theorem listPre_append (p t : List Char) : listPre p (p ++ t) = true := by
  induction p with
  | nil => rfl
  | cons c cs ih => simp [listPre, ih]

theorem listInf_decomp : ∀ u p t : List Char, listInf p (u ++ p ++ t) = true
  | [], p, t => by
    cases p with
    | nil => exact listInf_nil_left _
    | cons c cs =>
      show (listPre (c :: cs) ((c :: cs) ++ t) || listInf (c :: cs) (cs ++ t))
        = true
      rw [listPre_append]
      rfl
  | c :: u', p, t => by
    show (listPre p ((c :: u') ++ p ++ t) || listInf p (u' ++ p ++ t)) = true
    rw [listInf_decomp u' p t]
    simp

theorem stripChars_decomp (l : List Char) :
    ∃ u v, l = u ++ stripChars l ++ v := by
  refine ⟨l.takeWhile Char.isWhitespace,
    ((l.dropWhile Char.isWhitespace).reverse.takeWhile Char.isWhitespace).reverse,
    ?_⟩
  have h1 : l = l.takeWhile Char.isWhitespace ++ l.dropWhile Char.isWhitespace :=
    (List.takeWhile_append_dropWhile Char.isWhitespace l).symm
  have h2 : l.dropWhile Char.isWhitespace =
      stripChars l ++
        ((l.dropWhile Char.isWhitespace).reverse.takeWhile
          Char.isWhitespace).reverse := by
    have h3 : (l.dropWhile Char.isWhitespace).reverse =
        (l.dropWhile Char.isWhitespace).reverse.takeWhile Char.isWhitespace ++
          (l.dropWhile Char.isWhitespace).reverse.dropWhile Char.isWhitespace :=
      (List.takeWhile_append_dropWhile Char.isWhitespace
        (l.dropWhile Char.isWhitespace).reverse).symm
    calc l.dropWhile Char.isWhitespace
        = (l.dropWhile Char.isWhitespace).reverse.reverse := by
          rw [List.reverse_reverse]
      _ = ((l.dropWhile Char.isWhitespace).reverse.takeWhile Char.isWhitespace ++
            (l.dropWhile Char.isWhitespace).reverse.dropWhile
              Char.isWhitespace).reverse := by rw [← h3]
      _ = stripChars l ++
            ((l.dropWhile Char.isWhitespace).reverse.takeWhile
              Char.isWhitespace).reverse := by
          rw [List.reverse_append]
          rfl
  calc l = l.takeWhile Char.isWhitespace ++ l.dropWhile Char.isWhitespace := h1
    _ = l.takeWhile Char.isWhitespace ++ (stripChars l ++
          ((l.dropWhile Char.isWhitespace).reverse.takeWhile
            Char.isWhitespace).reverse) := by rw [← h2]
    _ = _ := by rw [List.append_assoc]

theorem pyIn_strip (s : String) : pyIn (pyStrip s) s = true := by
  show listInf (stripChars s.data) s.data = true
  obtain ⟨u, v, h⟩ := stripChars_decomp s.data
  have hd := listInf_decomp u (stripChars s.data) v
  rw [← h] at hd
  exact hd

/-! ## The blacklist branch of `is_actor_text` and the final filter -/

theorem is_actor_text_true_of_any (bl : List String) (t : String)
    (h : ∃ A ∈ bl, (pyLower A == pyStrip (pyLower t)) = true ∨
      pyIn (pyLower A) (pyStrip (pyLower t)) = true ∨
      pyIn (pyStrip (pyLower t)) (pyLower A) = true) :
    is_actor_text bl t = true := by
  obtain ⟨A, hA, hcase⟩ := h
  have hb : (bl.any fun actor_text =>
      pyLower actor_text == pyStrip (pyLower t) ||
        pyIn (pyLower actor_text) (pyStrip (pyLower t)) ||
        pyIn (pyStrip (pyLower t)) (pyLower actor_text)) = true := by
    refine List.any_eq_true.mpr ⟨A, hA, ?_⟩
    simp only [Bool.or_eq_true]
    tauto
  simp only [is_actor_text]
  rw [hb]
  simp

theorem run_ocr_not_actor (bl : List String) (W H thr : ℚ)
    (raw : List RawDet) :
    ∀ r ∈ run_ocr bl W H thr raw, is_actor_text bl r.text = false := by
  intro r hr
  simp only [run_ocr, List.mem_filterMap] at hr
  obtain ⟨d, _, hsome⟩ := hr
  by_cases hact : is_actor_text bl d.text = true
  · rw [if_pos hact] at hsome
    cases hsome
  · rw [if_neg hact] at hsome
    have hr' : r = ⟨d.bbox, d.text, d.confidence⟩ := (Option.some.inj hsome).symm
    subst hr'
    cases hval : is_actor_text bl d.text
    · rfl
    · exact absurd hval hact

/-- C1: for an actor name `A` stored (lowercase) in the blacklist,
`is_actor_text` accepts every candidate whose lowercased trimmed text equals
`A` or contains it or is contained in it, `run_ocr` drops every detection
`is_actor_text` accepts, and hence no record of the final output has text
equal to `A`. -/
theorem blacklist_exclusion (bl : List String) (W H thr : ℚ)
    (raw : List RawDet) (A : String) (hA : A ∈ bl) (hlow : pyLower A = A) :
    (∀ t : String, (pyStrip (pyLower t) = A ∨
        pyIn A (pyStrip (pyLower t)) = true ∨
        pyIn (pyStrip (pyLower t)) A = true) →
      is_actor_text bl t = true) ∧
    (∀ r ∈ run_ocr bl W H thr raw, is_actor_text bl r.text = false) ∧
    (∀ r ∈ run_ocr bl W H thr raw, r.text ≠ A) := by
  have hmain : ∀ t : String, (pyStrip (pyLower t) = A ∨
      pyIn A (pyStrip (pyLower t)) = true ∨
      pyIn (pyStrip (pyLower t)) A = true) → is_actor_text bl t = true := by
    intro t hcase
    apply is_actor_text_true_of_any
    refine ⟨A, hA, ?_⟩
    rw [hlow]
    rcases hcase with h | h | h
    · exact Or.inl (beq_iff_eq.mpr h.symm)
    · exact Or.inr (Or.inl h)
    · exact Or.inr (Or.inr h)
  refine ⟨hmain, run_ocr_not_actor bl W H thr raw, ?_⟩
  intro r hr hAeq
  have h1 : is_actor_text bl r.text = false := run_ocr_not_actor bl W H thr raw r hr
  have h2 : is_actor_text bl r.text = true := by
    rw [hAeq]
    apply hmain A
    refine Or.inr (Or.inr ?_)
    rw [hlow]
    exact pyIn_strip A
  rw [h1] at h2
  cases h2

/-- Witness for C1 with blacklist `["actor1"]`: a candidate containing the
actor name is accepted by `is_actor_text`, and on a concrete run the
surviving record's text is not the blacklisted name. -/
theorem blacklist_exclusion_witness :
    is_actor_text ["actor1"] "xActor1y" = true ∧
    is_actor_text ["actor1"] ucPedido.text = false ∧
    ucPedido.text ≠ "actor1" := by
  obtain ⟨h1, h2, h3⟩ := blacklist_exclusion ["actor1"] 1000 1000 (3 / 10)
    [rawActor, rawPedido] "actor1" (by simp) (by decide)
  have hmem : ucPedido ∈ run_ocr ["actor1"] 1000 1000 (3 / 10)
      [rawActor, rawPedido] := by
    with_unfolding_all decide
  exact ⟨h1 "xActor1y" (Or.inr (Or.inl (by decide))), h2 ucPedido hmem,
    h3 ucPedido hmem⟩

/-- C2: a detection reading `"<<include>>"` is always excluded: for every
blacklist `is_actor_text` accepts it (after stripping the markers the
cleaned text contains the keyword `include`), so no final record carries
that text. -/
theorem stereotype_exclusion (bl : List String) (W H thr : ℚ)
    (raw : List RawDet) :
    is_actor_text bl "<<include>>" = true ∧
    ∀ r ∈ run_ocr bl W H thr raw, r.text ≠ "<<include>>" := by
  have h1 : is_actor_text bl "<<include>>" = true := by
    have hk : (umlRelations.any fun relation =>
        pyIn relation (pyStrip (pyReplace (pyReplace
          (pyStrip (pyLower "<<include>>")) "<<" "") ">>" ""))) = true := by
      decide
    simp only [is_actor_text]
    rw [hk]
    simp
  refine ⟨h1, ?_⟩
  intro r hr hAeq
  have h2 : is_actor_text bl r.text = false :=
    run_ocr_not_actor bl W H thr raw r hr
  rw [hAeq, h1] at h2
  cases h2

/-- Witness for C2 with the empty blacklist on a concrete run containing a
`"<<include>>"` hit: the stereotype test accepts it and the surviving
record's text differs from it. -/
theorem stereotype_exclusion_witness :
    is_actor_text [] "<<include>>" = true ∧
    ucPedido.text ≠ "<<include>>" := by
  obtain ⟨h1, h2⟩ := stereotype_exclusion [] 1000 1000 (3 / 10)
    [rawInclude, rawPedido]
  have hmem : ucPedido ∈ run_ocr [] 1000 1000 (3 / 10)
      [rawInclude, rawPedido] := by
    with_unfolding_all decide
  exact ⟨h1, h2 ucPedido hmem⟩
